import Mathlib

/-!
Shallow embedding of the offline TF-IDF retrieval service
(`app/services/rag_service.py`) of the CareerCoach-AI repository,
together with proofs of the specification claims about it.

Text is modelled as `List Char` (Python indexes strings by character).
Python floats are idealised as real numbers.  ASCII text is assumed for
the tokenizer (the source lowercases and matches `[a-z]`).
-/

namespace RAG

/-! ### Python string primitives used by the service -/

/-- Characters removed by Python `str.strip()` (ASCII whitespace). -/
def pyIsSpace (c : Char) : Bool :=
  c = ' ' || c = '\t' || c = '\n' || c = '\x0d' || c = '\x0b' || c = '\x0c'

/-- Python `text.strip()`: drop leading and trailing whitespace. -/
def pyStrip (l : List Char) : List Char :=
  ((l.dropWhile pyIsSpace).reverse.dropWhile pyIsSpace).reverse

/-- Python `text[s:e]` for `0 ≤ s ≤ e`. -/
def pySlice (l : List Char) (s e : ℕ) : List Char :=
  (l.drop s).take (e - s)

/-- Python `str.lower()` restricted to ASCII. -/
def pyToLower (c : Char) : Char :=
  if 'A' ≤ c ∧ c ≤ 'Z' then Char.ofNat (c.toNat + 32) else c

/-! ### Tokenizer: `RAGService._tokenize`

`re.findall(r'\b[a-z]{2,}\b', text.lower())` returns exactly the maximal
runs of word characters (`[a-z0-9_]` after lowercasing) that consist of
letters only and have length at least 2; stop words are then removed. -/

/-- Word characters of the regex `\b` boundary (ASCII, lowercased text). -/
def isWordChar (c : Char) : Bool :=
  ('a' ≤ c && c ≤ 'z') || ('0' ≤ c && c ≤ '9') || c = '_'

def isAsciiLowerAlpha (c : Char) : Bool :=
  'a' ≤ c && c ≤ 'z'

/-- Split a character list into its maximal runs of word characters.
`acc` holds the current run, reversed. -/
def wordRunsAux : List Char → List Char → List (List Char)
  | [], acc => if acc.isEmpty then [] else [acc.reverse]
  | c :: rest, acc =>
    if isWordChar c then wordRunsAux rest (c :: acc)
    else if acc.isEmpty then wordRunsAux rest []
    else acc.reverse :: wordRunsAux rest []

def wordRuns (l : List Char) : List (List Char) := wordRunsAux l []

/-- `RAGService.STOP_WORDS`. -/
def STOP_WORDS : List String :=
  ["the", "a", "an", "is", "are", "was", "were", "be", "been", "being",
   "have", "has", "had", "do", "does", "did", "will", "would", "could",
   "should", "may", "might", "must", "shall", "can", "need", "dare",
   "ought", "used", "to", "of", "in", "for", "on", "with", "at", "by",
   "from", "as", "into", "through", "during", "before", "after",
   "above", "below", "between", "under", "again", "further", "then",
   "once", "here", "there", "when", "where", "why", "how", "all",
   "each", "few", "more", "most", "other", "some", "such", "no",
   "nor", "not", "only", "own", "same", "so", "than", "too", "very",
   "just", "and", "but", "if", "or", "because", "until", "while",
   "this", "that", "these", "those", "am", "it", "its", "we", "you",
   "your", "they", "their", "what", "which", "who", "whom"]

/-- `RAGService._tokenize`: lowercase, take the maximal word-character runs
that are purely alphabetic with length ≥ 2, and drop stop words. -/
def tokenize (text : List Char) : List String :=
  let runs := wordRuns (text.map pyToLower)
  (runs.filterMap fun run =>
      if 2 ≤ run.length ∧ run.all isAsciiLowerAlpha then some run.asString else none)
    |>.filter fun w => !(STOP_WORDS.contains w)

/-! ### Chunker: `RAGService._chunk_text` -/

def CHUNK_SIZE : ℕ := 500
def CHUNK_OVERLAP : ℕ := 50

/-- A chunk of text from a document (`DocumentChunk`). -/
structure DocumentChunk where
  content : List Char
  source : String
  chunk_id : String
  keywords : List String
deriving DecidableEq

/-- Modelled from the spec: chunk_id is a stable identifier derived
deterministically from the source and the sequential index
(`hashlib.md5(f"{source}_{idx}")` truncated — the hash itself lives outside
the repository, so it is modelled by the underlying tag string). -/
def chunk_id (source : String) (idx : ℕ) : String :=
  source ++ "_" ++ toString idx

/-- Scan helper for Python `text.rfind(sep, start, e)`: walk the suffix
`l = text.drop p₀` keeping the last (hence highest) admissible match. -/
def rfindScan (sep : List Char) (startIdx e : ℕ) :
    List Char → ℕ → Option ℕ → Option ℕ
  | [], _, best => best
  | c :: rest, p, best =>
    rfindScan sep startIdx e rest (p + 1)
      (if startIdx ≤ p ∧ p + sep.length ≤ e ∧ sep.isPrefixOf (c :: rest)
       then some p else best)

/-- Python `text.rfind(sep, start, e)`: highest position `p` with
`start ≤ p`, `p + |sep| ≤ e` and `sep` occurring at `p`; `none` if absent. -/
def pyRfind (text sep : List Char) (start e : ℕ) : Option ℕ :=
  rfindScan sep start e (text.drop start) start none

/-- One separator attempt of the chunk-boundary loop: if the separator is
found past the window midpoint, the window ends right after it. -/
def trySep (text sep : List Char) (start e : ℕ) : Option ℕ :=
  match pyRfind text sep start e with
  | some pos => if start + CHUNK_SIZE / 2 < pos then some (pos + 1) else none
  | none => none

/-- The `for sep in ['. ', '\n', ' ']` boundary search of `_chunk_text`. -/
def sepAdjustedEnd (text : List Char) (start e : ℕ) : ℕ :=
  match trySep text ['.', ' '] start e with
  | some e2 => e2
  | none =>
    match trySep text ['\n'] start e with
    | some e2 => e2
    | none =>
      match trySep text [' '] start e with
      | some e2 => e2
      | none => e

/-- End of the window starting at `start`: `min(start + CHUNK_SIZE, len)`,
moved to just past a separator when one occurs beyond the midpoint and the
window does not already reach the end of the text. -/
def windowEnd (text : List Char) (start : ℕ) : ℕ :=
  let e0 := min (start + CHUNK_SIZE) text.length
  if e0 < text.length then sepAdjustedEnd text start e0 else e0

/-- The `while start < len(text)` loop of `_chunk_text`.  `fuel` bounds the
number of iterations; the window start strictly increases each iteration,
so `text.length + 1` units of fuel reproduce the Python loop exactly. -/
def chunkLoop (text : List Char) (source : String) :
    ℕ → ℕ → ℕ → List DocumentChunk
  | 0, _, _ => []
  | fuel + 1, start, idx =>
    if start < text.length then
      let e := windowEnd text start
      let c := pyStrip (pySlice text start e)
      let start' := if start < e - CHUNK_OVERLAP then e - CHUNK_OVERLAP else e
      if c.isEmpty then chunkLoop text source fuel start' idx
      else ⟨c, source, chunk_id source idx, (tokenize c).take 20⟩ ::
        chunkLoop text source fuel start' (idx + 1)
    else []

/-- `RAGService._chunk_text`. -/
def chunk_text (text : List Char) (source : String) : List DocumentChunk :=
  let t := pyStrip text
  if t.length < CHUNK_SIZE then
    [⟨t, source, chunk_id source 0, (tokenize t).take 20⟩]
  else
    chunkLoop t source (t.length + 1) 0 0

/-! ### TF-IDF vectors and the index state -/

/-- A Python dict `word → float`: its key set plus the stored weights
(`w s = 0` off the support, as the comprehension in
`_get_tfidf_vector` never stores a key with no occurrence). -/
structure TfidfVec where
  support : Finset String
  w : String → ℝ

/-- The in-memory service state: `self._chunks`, `self._idf_scores`
(a dict, so `Option`-valued: absent keys fall back to `1.0` via `.get`),
and the persisted JSON file contents. -/
structure RAGState where
  chunks : List DocumentChunk
  idf : String → Option ℝ
  storage : Option (List DocumentChunk)

/-- Number of stored chunks whose token set contains `w`
(`word_doc_count` of `_compute_idf`). -/
def docCount (w : String) (chunks : List DocumentChunk) : ℕ :=
  (chunks.filter fun c => (tokenize c.content).contains w).length

/-- `RAGService._compute_idf`: on a nonempty chunk set, rebuild
`_idf_scores` as `word ↦ log(doc_count / count)` over the words occurring
in at least one chunk; on an empty chunk set it returns early and leaves
the map untouched. -/
noncomputable def compute_idf (st : RAGState) : RAGState :=
  if st.chunks = [] then st
  else
    { st with
      idf := fun w =>
        if 0 < docCount w st.chunks then
          some (Real.log ((st.chunks.length : ℝ) / (docCount w st.chunks : ℝ)))
        else none }

/-- `RAGService._get_tfidf_vector`. -/
noncomputable def get_tfidf_vector (idf : String → Option ℝ) (text : List Char) :
    TfidfVec :=
  let words := tokenize text
  let total : ℕ := if words.isEmpty then 1 else words.length
  { support := words.toFinset
    w := fun s => ((words.count s : ℝ) / (total : ℝ)) * ((idf s).getD 1) }

/-- `RAGService._cosine_similarity`. -/
noncomputable def cosine_similarity (v1 v2 : TfidfVec) : ℝ :=
  if v1.support = ∅ ∨ v2.support = ∅ then 0
  else
    let common := v1.support ∩ v2.support
    if common = ∅ then 0
    else
      let dot := ∑ s ∈ common, v1.w s * v2.w s
      let n1 := Real.sqrt (∑ s ∈ v1.support, v1.w s * v1.w s)
      let n2 := Real.sqrt (∑ s ∈ v2.support, v2.w s * v2.w s)
      if n1 ≠ 0 ∧ n2 ≠ 0 then dot / (n1 * n2) else 0

/-- `RAGService.add_document`, taking the text extracted by
`_parse_document` (the PDF/DOCX/plain-text parsers are external; a parse
failure or empty file yields the empty string).  Returns the new state and
the chunk count reported to the caller. -/
noncomputable def add_document (st : RAGState) (text : List Char)
    (filename : String) : RAGState × ℕ :=
  if text = [] then (st, 0)
  else
    let cs := chunk_text text filename
    let st1 := compute_idf { st with chunks := st.chunks ++ cs }
    ({ st1 with storage := some st1.chunks }, cs.length)

/-- `RAGService.clear_documents`. -/
def clear_documents (_st : RAGState) : RAGState :=
  { chunks := [], idf := fun _ => none, storage := none }

/-! ### Retriever: `RAGService.query_context` -/

/-- Cosine score of one stored chunk against the query vector. -/
noncomputable def chunk_score (idf : String → Option ℝ) (qv : TfidfVec)
    (c : DocumentChunk) : ℝ :=
  cosine_similarity qv (get_tfidf_vector idf c.content)

/-- The comparison Python's stable `scored.sort(key=score, reverse=True)`
sorts by: higher score first. -/
def scoreGe : DocumentChunk × ℝ → DocumentChunk × ℝ → Prop :=
  fun a b => b.2 ≤ a.2

noncomputable instance : DecidableRel scoreGe :=
  fun a b => inferInstanceAs (Decidable (b.2 ≤ a.2))

/-- Python `scored[:k]` for an arbitrary integer `k`: a nonnegative stop
takes a prefix, a negative stop removes the last `|k|` elements. -/
def pyListSlice (k : ℤ) (l : List α) : List α :=
  if 0 ≤ k then l.take k.toNat else l.take (l.length - (-k).toNat)

/-- One returned record `{'content': …, 'source': …, 'score': …}`. -/
structure ScoredResult where
  content : List Char
  source : String
  score : ℝ

/-- The scored list built by `query_context`: every chunk with a strictly
positive cosine score, in insertion order. -/
noncomputable def scoredChunks (st : RAGState) (qv : TfidfVec) :
    List (DocumentChunk × ℝ) :=
  st.chunks.filterMap fun c =>
    let s := chunk_score st.idf qv c
    if 0 < s then some (c, s) else none

/-- `RAGService.query_context` (Python's Timsort is a stable sort; it is
modelled by the stable `insertionSort` on the score comparison). -/
noncomputable def query_context (st : RAGState) (q : List Char) (k : ℤ) :
    List ScoredResult :=
  if st.chunks = [] then []
  else
    let qv := get_tfidf_vector st.idf q
    if qv.support = ∅ then []
    else
      let sorted := (scoredChunks st qv).insertionSort scoreGe
      (pyListSlice k sorted).map fun p => ⟨p.1.content, p.1.source, p.2⟩

/-! ### Spec-side restatement of the retriever (for claim C1)

The spec describes the result order as: score descending, ties broken by
the chunks' original insertion order.  That is expressed literally below by
tagging each chunk with its insertion index and sorting by the
lexicographic order (score descending, then index ascending). -/

/-- Spec-side comparison: strictly higher score first, ties by smaller
insertion index first. -/
def specLe : ℕ × DocumentChunk × ℝ → ℕ × DocumentChunk × ℝ → Prop :=
  fun a b => b.2.2 < a.2.2 ∨ (a.2.2 = b.2.2 ∧ a.1 ≤ b.1)

noncomputable instance : DecidableRel specLe :=
  fun a b =>
    inferInstanceAs (Decidable (b.2.2 < a.2.2 ∨ (a.2.2 = b.2.2 ∧ a.1 ≤ b.1)))

/-- The positively-scored chunks tagged with their insertion indices. -/
noncomputable def scoredChunksIdx (st : RAGState) (qv : TfidfVec) :
    List (ℕ × DocumentChunk × ℝ) :=
  (List.enumFrom 0 st.chunks).filterMap fun p =>
    let s := chunk_score st.idf qv p.2
    if 0 < s then some (p.1, p.2, s) else none

/-- The retriever as the spec phrases it: score every stored chunk by
cosine similarity against the query's TF-IDF vector, discard zero scores,
sort by score descending with ties in insertion order, return the first
`k` as content/source/score records. -/
noncomputable def query_context_spec (st : RAGState) (q : List Char) (k : ℤ) :
    List ScoredResult :=
  let qv := get_tfidf_vector st.idf q
  let sorted := (scoredChunksIdx st qv).insertionSort specLe
  (sorted.take k.toNat).map fun p => ⟨p.2.1.content, p.2.1.source, p.2.2⟩

/-! ### Consistency invariant of the IDF map (claim C2) -/

/-- The IDF map is exactly the map recomputed from the current chunk set:
each token occurring in at least one chunk maps to
`log(chunk count / containing-chunk count)`, and nothing else is mapped. -/
def IdfConsistent (st : RAGState) : Prop :=
  ∀ w, st.idf w =
    if 0 < docCount w st.chunks then
      some (Real.log ((st.chunks.length : ℝ) / (docCount w st.chunks : ℝ)))
    else none

/-! ### Concrete fixtures used by the witness theorems -/

def emptyState : RAGState := ⟨[], fun _ => none, none⟩

def sampleChunk : DocumentChunk :=
  ⟨('h' :: 'e' :: 'l' :: 'l' :: 'o' :: []), "doc", "doc_0", ["hello"]⟩

def sampleState : RAGState := ⟨[sampleChunk], fun _ => none, none⟩

/-! ## Theorems -/

/-- C6: `add_document` on input whose extracted text is empty (an empty
byte buffer, an unsupported document, or a corrupt one — all of which
`_parse_document` turns into the empty string) returns 0 and leaves the
whole state, chunk set, IDF map and persisted storage included, unchanged. -/
theorem add_document_empty_text_noop (st : RAGState) (filename : String) :
    add_document st [] filename = (st, 0) := by
  simp [add_document]

/-- C4: a text whose stripped form is shorter than the chunk size yields
exactly one chunk, whose content is the stripped input. -/
theorem chunk_text_short (text : List Char) (src : String)
    (h : (pyStrip text).length < CHUNK_SIZE) :
    chunk_text text src =
      [⟨pyStrip text, src, chunk_id src 0, (tokenize (pyStrip text)).take 20⟩] := by
  simp [chunk_text, h]

theorem chunk_text_short_witness :
    chunk_text ('h' :: 'i' :: []) "d" =
      [⟨pyStrip ('h' :: 'i' :: []), "d", chunk_id "d" 0,
        (tokenize (pyStrip ('h' :: 'i' :: []))).take 20⟩] :=
  chunk_text_short ('h' :: 'i' :: []) "d" (by decide)

/-- C5 (counterexample): the chunker does NOT produce zero chunks on
whitespace-only input — a single space yields one (empty-content) chunk. -/
theorem chunk_text_whitespace_counterexample :
    ¬ ((chunk_text (' ' :: []) "doc").length = 0) := by
  decide

/-- C5 (amended): empty or whitespace-only input yields exactly one chunk,
whose content is empty. -/
theorem chunk_text_whitespace_single_empty (text : List Char) (src : String)
    (h : pyStrip text = []) :
    chunk_text text src = [⟨[], src, chunk_id src 0, []⟩] := by
  have h20 : (tokenize ([] : List Char)).take 20 = [] := by decide
  simp [chunk_text, h, h20, CHUNK_SIZE]

theorem chunk_text_whitespace_single_empty_witness :
    chunk_text (' ' :: []) "doc" = [⟨[], "doc", chunk_id "doc" 0, []⟩] :=
  chunk_text_whitespace_single_empty (' ' :: []) "doc" (by decide)

/-- C9: a query with no tokens (only stop words, single letters, digits or
punctuation) has an empty TF-IDF vector, so `query_context` returns the
empty list even when chunks are stored. -/
theorem query_context_no_tokens (st : RAGState) (q : List Char) (k : ℤ)
    (h : tokenize q = []) : query_context st q k = [] := by
  by_cases hc : st.chunks = []
  · simp [query_context, hc]
  · simp [query_context, hc, get_tfidf_vector, h]

theorem query_context_no_tokens_witness :
    query_context sampleState
      ('t' :: 'h' :: 'e' :: ' ' :: 'a' :: '1' :: ' ' :: '9' :: '9' :: ' ' :: '-' :: '-' :: [])
      3 = [] :=
  query_context_no_tokens sampleState _ 3 (by decide)

/-- C10: with `k = 0`, `query_context` returns the empty list; with a
negative `k`, Python's `scored[:k]` slice makes it return all matching
results except the `|k|` lowest-scored ones (the tail of the
descending-sorted full result list). -/
theorem query_context_k_semantics (st : RAGState) (q : List Char) :
    query_context st q 0 = [] ∧
    ∀ k : ℤ, k < 0 →
      query_context st q k =
        (query_context st q (st.chunks.length : ℤ)).take
          ((query_context st q (st.chunks.length : ℤ)).length - (-k).toNat) := by
  constructor
  · by_cases hc : st.chunks = []
    · simp [query_context, hc]
    · by_cases hqv : (get_tfidf_vector st.idf q).support = ∅
      · simp [query_context, hc, hqv]
      · simp [query_context, hc, hqv, pyListSlice]
  · intro k hk
    by_cases hc : st.chunks = []
    · simp [query_context, hc]
    · by_cases hqv : (get_tfidf_vector st.idf q).support = ∅
      · simp [query_context, hc, hqv]
      · simp only [query_context, if_neg hc, if_neg hqv]
        have hlen :
            ((scoredChunks st (get_tfidf_vector st.idf q)).insertionSort
              scoreGe).length ≤ st.chunks.length := by
          rw [List.length_insertionSort, scoredChunks]
          exact List.length_filterMap_le _ _
        have hfull :
            pyListSlice (st.chunks.length : ℤ)
              ((scoredChunks st (get_tfidf_vector st.idf q)).insertionSort scoreGe) =
            (scoredChunks st (get_tfidf_vector st.idf q)).insertionSort scoreGe := by
          simp [pyListSlice, List.take_of_length_le hlen]
        have hneg :
            pyListSlice k
              ((scoredChunks st (get_tfidf_vector st.idf q)).insertionSort scoreGe) =
            ((scoredChunks st (get_tfidf_vector st.idf q)).insertionSort scoreGe).take
              (((scoredChunks st (get_tfidf_vector st.idf q)).insertionSort
                scoreGe).length - (-k).toNat) := by
          simp [pyListSlice, not_le.mpr hk]
        rw [hneg, hfull, ← List.map_take, List.length_map]

theorem query_context_k_semantics_witness :
    query_context emptyState [] (-1) =
      (query_context emptyState [] ((emptyState.chunks.length : ℕ) : ℤ)).take
        ((query_context emptyState [] ((emptyState.chunks.length : ℕ) : ℤ)).length -
          (-(-1 : ℤ)).toNat) :=
  (query_context_k_semantics emptyState []).2 (-1) (by decide)

/-- Recomputing the IDF map yields a consistent map whenever the chunk set
is nonempty; on an empty chunk set it keeps the (then necessarily
consistent) previous map. -/
theorem compute_idf_consistent (st : RAGState)
    (h : st.chunks = [] → IdfConsistent st) : IdfConsistent (compute_idf st) := by
  by_cases hc : st.chunks = []
  · simpa [compute_idf, hc] using h hc
  · intro w
    simp [compute_idf, hc]

/-- C2: after every `add_document` and every `clear_documents` the IDF map
is exactly consistent with the chunk set — it maps each token occurring in
some stored chunk to `log(total chunks / chunks containing it)` and
nothing else. -/
theorem idf_map_consistency :
    (∀ st text filename, IdfConsistent st →
      IdfConsistent (add_document st text filename).1) ∧
    (∀ st, IdfConsistent (clear_documents st)) := by
  constructor
  · intro st text fname h
    by_cases ht : text = []
    · simpa [add_document, ht] using h
    · simp only [add_document, if_neg ht]
      have hcons :
          IdfConsistent (compute_idf { st with chunks := st.chunks ++ chunk_text text fname }) := by
        apply compute_idf_consistent
        intro hnil w
        rcases List.append_eq_nil.mp hnil with ⟨h1, h2⟩
        have hw := h w
        simp only [h1, h2, List.append_nil] at hw ⊢
        exact hw
      intro w
      exact hcons w
  · intro st w
    simp [clear_documents, docCount]

theorem idf_map_consistency_witness :
    IdfConsistent (add_document emptyState ('h' :: 'i' :: []) "f").1 :=
  idf_map_consistency.1 emptyState ('h' :: 'i' :: []) "f"
    (fun w => by simp [emptyState, docCount])

/-- C3: cosine similarity is symmetric in its two arguments, and lies in
`[0, 1]` whenever all stored weights of both vectors are non-negative. -/
theorem cosine_similarity_symm_and_bounded :
    (∀ v1 v2, cosine_similarity v1 v2 = cosine_similarity v2 v1) ∧
    (∀ v1 v2, (∀ s ∈ v1.support, 0 ≤ v1.w s) → (∀ s ∈ v2.support, 0 ≤ v2.w s) →
      0 ≤ cosine_similarity v1 v2 ∧ cosine_similarity v1 v2 ≤ 1) := by
  constructor
  · intro v1 v2
    simp only [cosine_similarity]
    rw [Finset.inter_comm v2.support v1.support]
    by_cases h0 : v1.support = ∅ ∨ v2.support = ∅
    · have h0' : v2.support = ∅ ∨ v1.support = ∅ := h0.symm
      rw [if_pos h0, if_pos h0']
    · have h0' : ¬(v2.support = ∅ ∨ v1.support = ∅) := fun hh => h0 hh.symm
      rw [if_neg h0, if_neg h0']
      by_cases hcom : v1.support ∩ v2.support = ∅
      · rw [if_pos hcom, if_pos hcom]
      · rw [if_neg hcom, if_neg hcom]
        have hd : (∑ s ∈ v1.support ∩ v2.support, v1.w s * v2.w s)
            = ∑ s ∈ v1.support ∩ v2.support, v2.w s * v1.w s :=
          Finset.sum_congr rfl fun s _ => mul_comm _ _
        by_cases hn : Real.sqrt (∑ s ∈ v1.support, v1.w s * v1.w s) ≠ 0 ∧
            Real.sqrt (∑ s ∈ v2.support, v2.w s * v2.w s) ≠ 0
        · have hn' : Real.sqrt (∑ s ∈ v2.support, v2.w s * v2.w s) ≠ 0 ∧
              Real.sqrt (∑ s ∈ v1.support, v1.w s * v1.w s) ≠ 0 := ⟨hn.2, hn.1⟩
          rw [if_pos hn, if_pos hn', hd, mul_comm]
        · have hn' : ¬(Real.sqrt (∑ s ∈ v2.support, v2.w s * v2.w s) ≠ 0 ∧
              Real.sqrt (∑ s ∈ v1.support, v1.w s * v1.w s) ≠ 0) :=
            fun hh => hn ⟨hh.2, hh.1⟩
          rw [if_neg hn, if_neg hn']
  · intro v1 v2 h1 h2
    simp only [cosine_similarity]
    by_cases h0 : v1.support = ∅ ∨ v2.support = ∅
    · rw [if_pos h0]; exact ⟨le_refl 0, zero_le_one⟩
    · rw [if_neg h0]
      by_cases hcom : v1.support ∩ v2.support = ∅
      · rw [if_pos hcom]; exact ⟨le_refl 0, zero_le_one⟩
      · rw [if_neg hcom]
        by_cases hn : Real.sqrt (∑ s ∈ v1.support, v1.w s * v1.w s) ≠ 0 ∧
            Real.sqrt (∑ s ∈ v2.support, v2.w s * v2.w s) ≠ 0
        · rw [if_pos hn]
          have hn1 : 0 < Real.sqrt (∑ s ∈ v1.support, v1.w s * v1.w s) :=
            lt_of_le_of_ne (Real.sqrt_nonneg _) (Ne.symm hn.1)
          have hn2 : 0 < Real.sqrt (∑ s ∈ v2.support, v2.w s * v2.w s) :=
            lt_of_le_of_ne (Real.sqrt_nonneg _) (Ne.symm hn.2)
          have hdot0 : 0 ≤ ∑ s ∈ v1.support ∩ v2.support, v1.w s * v2.w s :=
            Finset.sum_nonneg fun s hs =>
              mul_nonneg (h1 s (Finset.mem_inter.mp hs).1)
                (h2 s (Finset.mem_inter.mp hs).2)
          refine ⟨div_nonneg hdot0 (mul_nonneg hn1.le hn2.le), ?_⟩
          rw [div_le_one (mul_pos hn1 hn2)]
          calc (∑ s ∈ v1.support ∩ v2.support, v1.w s * v2.w s)
              ≤ Real.sqrt (∑ s ∈ v1.support ∩ v2.support, v1.w s ^ 2) *
                Real.sqrt (∑ s ∈ v1.support ∩ v2.support, v2.w s ^ 2) :=
                Real.sum_mul_le_sqrt_mul_sqrt _ _ _
            _ ≤ Real.sqrt (∑ s ∈ v1.support, v1.w s * v1.w s) *
                Real.sqrt (∑ s ∈ v2.support, v2.w s * v2.w s) := by
                apply mul_le_mul
                · apply Real.sqrt_le_sqrt
                  calc (∑ s ∈ v1.support ∩ v2.support, v1.w s ^ 2)
                      ≤ ∑ s ∈ v1.support, v1.w s ^ 2 :=
                        Finset.sum_le_sum_of_subset_of_nonneg
                          Finset.inter_subset_left (fun i _ _ => sq_nonneg _)
                    _ = ∑ s ∈ v1.support, v1.w s * v1.w s :=
                        Finset.sum_congr rfl fun s _ => pow_two _
                · apply Real.sqrt_le_sqrt
                  calc (∑ s ∈ v1.support ∩ v2.support, v2.w s ^ 2)
                      ≤ ∑ s ∈ v2.support, v2.w s ^ 2 :=
                        Finset.sum_le_sum_of_subset_of_nonneg
                          Finset.inter_subset_right (fun i _ _ => sq_nonneg _)
                    _ = ∑ s ∈ v2.support, v2.w s * v2.w s :=
                        Finset.sum_congr rfl fun s _ => pow_two _
                · exact Real.sqrt_nonneg _
                · exact Real.sqrt_nonneg _
        · rw [if_neg hn]; exact ⟨le_refl 0, zero_le_one⟩

theorem cosine_similarity_bounds_witness :
    0 ≤ cosine_similarity ⟨{"ab"}, fun _ => 1⟩ ⟨{"ab"}, fun _ => 1⟩ ∧
    cosine_similarity ⟨{"ab"}, fun _ => 1⟩ ⟨{"ab"}, fun _ => 1⟩ ≤ 1 :=
  cosine_similarity_symm_and_bounded.2 _ _
    (fun _ _ => zero_le_one) (fun _ _ => zero_le_one)

/-- Stripping never lengthens a string. -/
theorem length_pyStrip_le (l : List Char) : (pyStrip l).length ≤ l.length := by
  unfold pyStrip
  rw [List.length_reverse]
  calc ((l.dropWhile pyIsSpace).reverse.dropWhile pyIsSpace).length
      ≤ (l.dropWhile pyIsSpace).reverse.length :=
        (List.dropWhile_sublist _).length_le
    _ = (l.dropWhile pyIsSpace).length := List.length_reverse _
    _ ≤ l.length := (List.dropWhile_sublist _).length_le

theorem length_pySlice_le (l : List Char) (s e : ℕ) :
    (pySlice l s e).length ≤ e - s := by
  unfold pySlice
  exact List.length_take_le _ _

/-- A position reported by the rfind scan respects the search bounds. -/
theorem rfindScan_some_bound (sep : List Char) (startIdx e : ℕ) :
    ∀ (l : List Char) (p : ℕ) (best : Option ℕ) (q : ℕ),
      (∀ r, best = some r → startIdx ≤ r ∧ r + sep.length ≤ e) →
      rfindScan sep startIdx e l p best = some q →
      startIdx ≤ q ∧ q + sep.length ≤ e := by
  intro l
  induction l with
  | nil => intro p best q hbest h; exact hbest q h
  | cons c rest ih =>
    intro p best q hbest h
    rw [rfindScan] at h
    refine ih (p + 1) _ q ?_ h
    intro r hr
    split at hr
    · next hc =>
        cases hr
        exact ⟨hc.1, hc.2.1⟩
    · next => exact hbest r hr

theorem pyRfind_some_bound {text sep : List Char} {start e p : ℕ}
    (h : pyRfind text sep start e = some p) :
    start ≤ p ∧ p + sep.length ≤ e :=
  rfindScan_some_bound sep start e _ start none p
    (fun _ hr => Option.noConfusion hr) h

theorem trySep_le {text sep : List Char} {start e e2 : ℕ}
    (hsep : 1 ≤ sep.length) (h : trySep text sep start e = some e2) : e2 ≤ e := by
  unfold trySep at h
  split at h
  · next pos heq =>
      split at h
      · cases h
        have := pyRfind_some_bound heq
        omega
      · cases h
  · next => cases h

theorem sepAdjustedEnd_le (text : List Char) (start e : ℕ) :
    sepAdjustedEnd text start e ≤ e := by
  unfold sepAdjustedEnd
  split
  · next heq => exact trySep_le (by decide) heq
  · next =>
      split
      · next heq => exact trySep_le (by decide) heq
      · next =>
          split
          · next heq => exact trySep_le (by decide) heq
          · next => exact le_refl e

theorem windowEnd_le (text : List Char) (start : ℕ) :
    windowEnd text start ≤ start + CHUNK_SIZE := by
  simp only [windowEnd]
  split
  · exact le_trans (sepAdjustedEnd_le _ _ _) (min_le_left _ _)
  · exact min_le_left _ _

/-- Every chunk produced by the window loop fits in the chunk size. -/
theorem chunkLoop_content_le (text : List Char) (src : String) :
    ∀ fuel start idx c, c ∈ chunkLoop text src fuel start idx →
      c.content.length ≤ CHUNK_SIZE := by
  intro fuel
  induction fuel with
  | zero => intro start idx c h; simp [chunkLoop] at h
  | succ n ih =>
    intro start idx c h
    by_cases hs : start < text.length
    · simp only [chunkLoop, if_pos hs] at h
      have hlen : (pyStrip (pySlice text start (windowEnd text start))).length ≤
          CHUNK_SIZE := by
        have he := windowEnd_le text start
        calc (pyStrip (pySlice text start (windowEnd text start))).length
            ≤ (pySlice text start (windowEnd text start)).length :=
              length_pyStrip_le _
          _ ≤ windowEnd text start - start := length_pySlice_le _ _ _
          _ ≤ CHUNK_SIZE := by omega
      split at h
      · exact ih _ _ c h
      · rcases List.mem_cons.mp h with rfl | h'
        · exact hlen
        · exact ih _ _ c h'
    · simp [chunkLoop, if_neg hs] at h

/-- The chunk set recomputation touches only the IDF map. -/
theorem compute_idf_chunks (st : RAGState) :
    (compute_idf st).chunks = st.chunks := by
  unfold compute_idf
  split <;> rfl

/-- C7: every chunk the chunker emits has content of at most `CHUNK_SIZE`
characters, and `add_document` preserves this bound on the stored set. -/
theorem chunk_content_length_bound :
    (∀ text src c, c ∈ chunk_text text src → c.content.length ≤ CHUNK_SIZE) ∧
    (∀ st text filename, (∀ c ∈ st.chunks, c.content.length ≤ CHUNK_SIZE) →
      ∀ c ∈ (add_document st text filename).1.chunks,
        c.content.length ≤ CHUNK_SIZE) := by
  have hchunk : ∀ text src c, c ∈ chunk_text text src →
      c.content.length ≤ CHUNK_SIZE := by
    intro text src c h
    simp only [chunk_text] at h
    split at h
    · next hshort =>
        rcases List.mem_singleton.mp h with rfl
        exact le_of_lt hshort
    · exact chunkLoop_content_le _ _ _ _ _ c h
  refine ⟨hchunk, ?_⟩
  intro st text filename hst c hc
  by_cases ht : text = []
  · rw [ht] at hc
    simp only [add_document, if_pos rfl] at hc
    exact hst c hc
  · simp only [add_document, if_neg ht] at hc
    rw [compute_idf_chunks] at hc
    rcases List.mem_append.mp hc with h' | h'
    · exact hst c h'
    · exact hchunk _ _ c h'

theorem chunk_content_length_bound_witness :
    (⟨'h' :: 'i' :: [], "d", chunk_id "d" 0, "hi" :: []⟩ :
      DocumentChunk).content.length ≤ CHUNK_SIZE :=
  chunk_content_length_bound.1 ('h' :: 'i' :: []) "d" _ (by decide)

/-! ### Stability of the Python sort (claim C1)

Python's `list.sort` is stable, so sorting the scored chunks by score
descending keeps score ties in insertion order.  The lemmas below show the
stable score-only sort agrees with the lexicographic
(score descending, insertion index ascending) sort on index-tagged
entries. -/

/-- Inserting an entry whose tag precedes every tag in the list commutes
with dropping the tags. -/
theorem map_snd_orderedInsert (a : ℕ × DocumentChunk × ℝ)
    (L : List (ℕ × DocumentChunk × ℝ)) (h : ∀ b ∈ L, a.1 < b.1) :
    (L.orderedInsert specLe a).map Prod.snd =
      (L.map Prod.snd).orderedInsert scoreGe a.2 := by
  induction L with
  | nil => rfl
  | cons b L ih =>
    have hab : specLe a b ↔ scoreGe a.2 b.2 := by
      have hlt := h b (List.mem_cons_self b L)
      unfold specLe scoreGe
      constructor
      · rintro (hgt | ⟨heq, _⟩)
        · exact le_of_lt hgt
        · exact le_of_eq heq.symm
      · intro hle
        rcases lt_or_eq_of_le hle with hlt2 | heq2
        · exact Or.inl hlt2
        · exact Or.inr ⟨heq2.symm, le_of_lt hlt⟩
    simp only [List.orderedInsert, List.map_cons]
    by_cases hc : specLe a b
    · rw [if_pos hc, if_pos (hab.mp hc)]
      simp
    · rw [if_neg hc, if_neg (fun hk => hc (hab.mpr hk))]
      simp only [List.map_cons]
      rw [ih (fun x hx => h x (List.mem_cons_of_mem _ hx))]

/-- Stably sorting tagged entries by score alone agrees with sorting by
(score, tag) lexicographically when the tags are strictly increasing. -/
theorem map_snd_insertionSort (L : List (ℕ × DocumentChunk × ℝ))
    (h : L.Pairwise fun p q => p.1 < q.1) :
    (L.insertionSort specLe).map Prod.snd =
      (L.map Prod.snd).insertionSort scoreGe := by
  induction L with
  | nil => rfl
  | cons a L ih =>
    have hmem : ∀ b ∈ L.insertionSort specLe, a.1 < b.1 := by
      intro b hb
      exact (List.pairwise_cons.mp h).1 b
        ((List.perm_insertionSort specLe L).mem_iff.mp hb)
    simp only [List.insertionSort, List.map_cons]
    rw [map_snd_orderedInsert a _ hmem, ih h.of_cons]

theorem fst_le_of_mem_enumFrom {l : List DocumentChunk} :
    ∀ {n : ℕ} {p : ℕ × DocumentChunk}, p ∈ List.enumFrom n l → n ≤ p.1 := by
  induction l with
  | nil => intro n p h; cases h
  | cons a l ih =>
    intro n p h
    simp only [List.enumFrom_cons] at h
    rcases List.mem_cons.mp h with rfl | h'
    · exact le_refl n
    · exact le_trans (Nat.le_succ n) (ih h')

theorem pairwise_fst_lt_enumFrom (l : List DocumentChunk) :
    ∀ n, (List.enumFrom n l).Pairwise fun p q => p.1 < q.1 := by
  induction l with
  | nil => intro n; simp
  | cons a l ih =>
    intro n
    simp only [List.enumFrom_cons]
    refine List.Pairwise.cons ?_ (ih (n + 1))
    intro q hq
    have := fst_le_of_mem_enumFrom hq
    omega

/-- Dropping the insertion tags of the spec-side scored list recovers the
code-side scored list. -/
theorem map_snd_filterMap_enumFrom (f : DocumentChunk → ℝ) :
    ∀ (l : List DocumentChunk) (n : ℕ),
      ((List.enumFrom n l).filterMap fun p =>
          if 0 < f p.2 then some (p.1, p.2, f p.2) else none).map Prod.snd =
        l.filterMap fun c => if 0 < f c then some (c, f c) else none := by
  intro l
  induction l with
  | nil => intro n; rfl
  | cons a l ih =>
    intro n
    simp only [List.enumFrom_cons, List.filterMap_cons]
    by_cases hf : 0 < f a
    · simp only [if_pos hf, List.map_cons]
      rw [ih (n + 1)]
    · simp only [if_neg hf]
      exact ih (n + 1)

/-- Filtering by score keeps the insertion tags strictly increasing. -/
theorem pairwise_fst_lt_filterMap (f : DocumentChunk → ℝ) :
    ∀ L : List (ℕ × DocumentChunk),
      (L.Pairwise fun p q => p.1 < q.1) →
      ((L.filterMap fun p =>
          if 0 < f p.2 then some (p.1, p.2, f p.2) else none).Pairwise
        fun p q => p.1 < q.1) := by
  intro L
  induction L with
  | nil => intro h; simp
  | cons a L ih =>
    intro h
    rcases List.pairwise_cons.mp h with ⟨ha, hL⟩
    simp only [List.filterMap_cons]
    by_cases hf : 0 < f a.2
    · simp only [if_pos hf]
      refine List.Pairwise.cons ?_ (ih hL)
      intro q hq
      rcases List.mem_filterMap.mp hq with ⟨b, hb, hbq⟩
      have hq1 : q.1 = b.1 := by
        by_cases hfb : 0 < f b.2
        · rw [if_pos hfb] at hbq; cases hbq; rfl
        · rw [if_neg hfb] at hbq; cases hbq
      rw [hq1]
      exact ha b hb
    · simp only [if_neg hf]
      exact ih hL

/-- C1: for every index state, query and `k ≥ 0`, `query_context` returns
exactly what the spec describes — the chunks scored positive by cosine
similarity against the query's TF-IDF vector, sorted by score descending
with ties in insertion order, truncated to `k` content/source/score
records. -/
theorem query_context_eq_spec (st : RAGState) (q : List Char) (k : ℤ)
    (hk : 0 ≤ k) : query_context st q k = query_context_spec st q k := by
  unfold query_context query_context_spec
  by_cases hc : st.chunks = []
  · simp [hc, scoredChunksIdx]
  · rw [if_neg hc]
    by_cases hqv : (get_tfidf_vector st.idf q).support = ∅
    · rw [if_pos hqv]
      have hz : scoredChunksIdx st (get_tfidf_vector st.idf q) = [] := by
        apply List.filterMap_eq_nil_iff.mpr
        intro p _
        have hzero : chunk_score st.idf (get_tfidf_vector st.idf q) p.2 = 0 := by
          unfold chunk_score cosine_similarity
          rw [if_pos (Or.inl hqv)]
        simp [hzero]
      simp [hz]
    · rw [if_neg hqv]
      have hpair :=
        pairwise_fst_lt_filterMap
          (chunk_score st.idf (get_tfidf_vector st.idf q))
          (List.enumFrom 0 st.chunks) (pairwise_fst_lt_enumFrom st.chunks 0)
      have hsnd :
          (scoredChunksIdx st (get_tfidf_vector st.idf q)).map Prod.snd =
            scoredChunks st (get_tfidf_vector st.idf q) := by
        simp only [scoredChunksIdx, scoredChunks]
        exact map_snd_filterMap_enumFrom _ st.chunks 0
      have hsort :
          ((scoredChunksIdx st (get_tfidf_vector st.idf q)).insertionSort
              specLe).map Prod.snd =
            (scoredChunks st (get_tfidf_vector st.idf q)).insertionSort
              scoreGe := by
        rw [map_snd_insertionSort _ ?hp, hsnd]
        case hp =>
          simpa only [scoredChunksIdx] using hpair
      have hslice :
          pyListSlice k
              ((scoredChunks st (get_tfidf_vector st.idf q)).insertionSort
                scoreGe) =
            ((scoredChunks st (get_tfidf_vector st.idf q)).insertionSort
              scoreGe).take k.toNat := by
        simp [pyListSlice, hk]
      dsimp only
      rw [hslice, ← hsort, ← List.map_take, List.map_map]
      rfl

theorem query_context_eq_spec_witness :
    query_context emptyState [] 3 = query_context_spec emptyState [] 3 :=
  query_context_eq_spec emptyState [] 3 (by decide)

set_option maxRecDepth 100000 in
/-- C8 (counterexample): a 1200-character document does not in general
yield 3 chunks — 1200 identical non-whitespace characters yield 4 (the
overlap makes the loop open a final 50-character window). -/
theorem chunk_count_1200_counterexample :
    ¬ ((chunk_text (List.replicate 1200 'a') "doc").length = 3) := by
  decide

set_option maxRecDepth 100000 in
/-- C8 (amended): indexing a 1200-character document of identical
non-whitespace characters with chunk size 500 and overlap 50 yields
exactly 4 chunks. -/
theorem chunk_count_1200_eq_four :
    (chunk_text (List.replicate 1200 'a') "doc").length = 4 := by
  decide

end RAG
